import Mathlib

/- Verification development for the sentinel-x repository.
   Part 1 embeds the staged-diff printing helper
   (src/.agent/skills/git-formatter/script.py).
   Part 2 embeds the batch source-code rewrite engine described by the
   design specification (the engine source itself is not present in the
   repository snapshot, so it is modelled from the spec). -/

namespace GitFormatter

/-- Result of a subprocess that was successfully spawned: exit code plus the
captured standard output and standard error (subprocess.run with
capture_output=True, text=True). -/
structure ProcResult where
  exitCode : Nat
  stdout : String
  stderr : String
deriving DecidableEq

/-- Outcome of attempting to spawn the subprocess: either it ran and produced
a ProcResult, or the spawn itself failed (e.g. a missing git executable),
which the script does not catch. -/
inductive SpawnResult where
  | ran (r : ProcResult)
  | spawnFailure
deriving DecidableEq

/-- Command line the helper shells out to: git diff --cached --stat. -/
def gitDiffArgs : List String := ["git", "diff", "--cached", "--stat"]

/-- Value produced by a piece of Python code: either a normal value or an
uncaught exception propagating out of the call. -/
inductive PyResult (α : Type) where
  | ok (a : α)
  | uncaughtExn
deriving DecidableEq

/-- Embedding of get_git_diff: the function runs the git diff command with
check=True, so a nonzero exit status raises CalledProcessError, which is
caught and mapped to None; a zero exit returns the captured stdout; a spawn
failure is not caught by the except clause and propagates. The subprocess
environment is modelled as a function from the command line to a
SpawnResult. -/
def get_git_diff (env : List String → SpawnResult) : PyResult (Option String) :=
  match env gitDiffArgs with
  | SpawnResult.spawnFailure => PyResult.uncaughtExn
  | SpawnResult.ran r =>
      if r.exitCode = 0 then PyResult.ok (some r.stdout) else PyResult.ok none

/-- Error message printed when the diff is falsy (git failed or no staged
changes). -/
def noStagedMsg : String := "错误：没有检测到已暂存（staged）的更改。请先运行 `git add`。"

/-- Instructional header printed before the diff. -/
def headerMsg : String := "已检测到以下更改，请根据此内容生成 Conventional Commit 信息："

/-- Separator line printed around the diff: thirty dashes. -/
def sepLine : String := String.mk (List.replicate 30 '-')

/-- Suggestion line printed last (its leading newline comes from the
source). -/
def suggestMsg : String := "\n建议格式：<type>(<scope>): <subject>"

/-- Observable behaviour of one run of main: the lines printed to standard
output (one entry per print call) and the process exit status. -/
structure MainResult where
  printed : List String
  exitCode : Nat
deriving DecidableEq

/-- Embedding of main: a falsy diff (None or the empty string) prints the
error message and exits with status 1; otherwise main prints the header, the
diff framed by separator lines and the suggestion line, and returns normally
(process exit status 0). -/
def main (env : List String → SpawnResult) : PyResult MainResult :=
  match get_git_diff env with
  | PyResult.uncaughtExn => PyResult.uncaughtExn
  | PyResult.ok none => PyResult.ok ⟨[noStagedMsg], 1⟩
  | PyResult.ok (some d) =>
      if d = "" then PyResult.ok ⟨[noStagedMsg], 1⟩
      else PyResult.ok ⟨[headerMsg, sepLine, d, sepLine, suggestMsg], 0⟩

/-- Environment in which the git command exits nonzero. -/
def envNonzero : List String → SpawnResult :=
  fun _ => SpawnResult.ran ⟨1, "boom", "err"⟩

/-- Environment in which the git command succeeds with a nonempty stat. -/
def envStaged : List String → SpawnResult :=
  fun _ => SpawnResult.ran ⟨0, "file.py | 2 +-", ""⟩

/-- Environment pair differing only in the captured standard error. -/
def envA : List String → SpawnResult := fun _ => SpawnResult.ran ⟨0, "d", "x"⟩

/-- Second environment of the pair, with a different standard error. -/
def envB : List String → SpawnResult := fun _ => SpawnResult.ran ⟨0, "d", "y"⟩

end GitFormatter

open GitFormatter in
/-- C1: the diff-printing helper shells out to git diff --cached --stat
(staged, stat mode) and, when that command succeeds with nonempty output,
main prints the captured stat output verbatim framed by separator lines,
together with the locale-specific instructional messages, and returns
normally (exit status 0); the output lines contain the diff unmodified. -/
theorem c1_prints_diff_verbatim :
    gitDiffArgs = ["git", "diff", "--cached", "--stat"] ∧
    ∀ (env : List String → SpawnResult) (r : ProcResult),
      env gitDiffArgs = SpawnResult.ran r → r.exitCode = 0 → r.stdout ≠ "" →
      main env = PyResult.ok ⟨[headerMsg, sepLine, r.stdout, sepLine, suggestMsg], 0⟩ := by
  refine ⟨rfl, ?_⟩
  intro env r h h0 hne
  simp [main, get_git_diff, h, h0, hne]

open GitFormatter in
/-- Witness for C1 at a concrete environment where git succeeds with a
nonempty stat output. -/
theorem c1_witness :
    main envStaged =
      PyResult.ok ⟨[headerMsg, sepLine, "file.py | 2 +-", sepLine, suggestMsg], 0⟩ :=
  c1_prints_diff_verbatim.2 envStaged ⟨0, "file.py | 2 +-", ""⟩ rfl rfl (by decide)

open GitFormatter in
/-- C8: when the subprocess runs, main exits with status 1 after printing the
error message if and only if get_git_diff yields None (nonzero git exit) or
the empty string (no staged changes) — both cases print the same message —
and in every other case main prints the diff and returns with exit
status 0. -/
theorem c8_main_exit_contract :
    ∀ (env : List String → SpawnResult) (r : ProcResult),
      env gitDiffArgs = SpawnResult.ran r →
      (main env = PyResult.ok ⟨[noStagedMsg], 1⟩ ↔
        (get_git_diff env = PyResult.ok none ∨
          get_git_diff env = PyResult.ok (some ""))) ∧
      (r.exitCode = 0 → r.stdout ≠ "" →
        main env = PyResult.ok ⟨[headerMsg, sepLine, r.stdout, sepLine, suggestMsg], 0⟩) := by
  intro env r h
  by_cases h0 : r.exitCode = 0
  · by_cases hs : r.stdout = ""
    · constructor
      · simp [main, get_git_diff, h, h0, hs]
      · intro _ hne; exact absurd hs hne
    · constructor
      · simp [main, get_git_diff, h, h0, hs]
      · intro _ _; simp [main, get_git_diff, h, h0, hs]
  · constructor
    · simp [main, get_git_diff, h, h0]
    · intro hc; exact absurd hc h0

open GitFormatter in
/-- Witness for C8 at a concrete environment where git exits nonzero: main
prints the error message and exits with status 1. -/
theorem c8_witness : main envNonzero = PyResult.ok ⟨[noStagedMsg], 1⟩ := by
  have h := (c8_main_exit_contract envNonzero ⟨1, "boom", "err"⟩ rfl).1
  exact h.mpr (Or.inl (by decide))

open GitFormatter in
/-- C9: get_git_diff returns the captured stdout of git diff --cached --stat
whenever the command exits with status 0, returns None whenever it exits
nonzero (the CalledProcessError is caught, no exception escapes), and only a
failure to spawn the subprocess propagates as an uncaught exception. -/
theorem c9_get_git_diff_contract :
    (∀ (env : List String → SpawnResult) (r : ProcResult),
      env gitDiffArgs = SpawnResult.ran r →
      get_git_diff env = PyResult.ok (if r.exitCode = 0 then some r.stdout else none)) ∧
    (∀ env : List String → SpawnResult,
      env gitDiffArgs = SpawnResult.spawnFailure →
      get_git_diff env = PyResult.uncaughtExn) := by
  constructor
  · intro env r h
    by_cases h0 : r.exitCode = 0 <;> simp [get_git_diff, h, h0]
  · intro env h
    simp [get_git_diff, h]

open GitFormatter in
/-- Witness for C9 at a concrete environment where git exits with status 1:
get_git_diff returns None rather than raising. -/
theorem c9_witness : get_git_diff envNonzero = PyResult.ok none := by
  have h := c9_get_git_diff_contract.1 envNonzero ⟨1, "boom", "err"⟩ rfl
  simpa using h

open GitFormatter in
/-- C10: determinism of the helper — any two runs of main in which the git
subprocess yields the same standard output and the same exit status (the
captured standard error may differ; it is never read) print identical text
and terminate with the same exit status. -/
theorem c10_determinism :
    ∀ (env₁ env₂ : List String → SpawnResult) (c : Nat) (out e₁ e₂ : String),
      env₁ gitDiffArgs = SpawnResult.ran ⟨c, out, e₁⟩ →
      env₂ gitDiffArgs = SpawnResult.ran ⟨c, out, e₂⟩ →
      main env₁ = main env₂ := by
  intro env₁ env₂ c out e₁ e₂ h₁ h₂
  simp [main, get_git_diff, h₁, h₂]

open GitFormatter in
/-- Witness for C10 at two concrete environments that differ only in the
captured standard error. -/
theorem c10_witness : main envA = main envB :=
  c10_determinism envA envB 0 "d" "x" "y" rfl rfl

namespace Engine

/-- Modelled from the spec: identifier characters; a match must be bounded by
identifier-boundary (non-identifier) characters on both sides (spec 4.3
step 2). -/
def isIdentChar (c : Char) : Bool := c.isAlpha || c.isDigit || c == '_'

/-- Modelled from the spec: the right-boundary check — the character following
a match (if any) must not be an identifier character. -/
def boundaryAfter : List Char → Bool
  | [] => true
  | c :: _ => !isIdentChar c

/-- Modelled from the spec: the matched text for a qualifier and a symbol —
qualifier, member-access separator, symbol (spec 4.3 step 2). -/
def patList (q s : String) : List Char := q.data ++ '.' :: s.data

/-- Length of the matched text for a qualifier and a symbol. -/
def patLen (q s : String) : Nat := q.data.length + 1 + s.data.length

/-- Modelled from the spec: whether content starts with the occurrence
qualifier-separator-symbol followed by an identifier boundary. The left
boundary is tracked separately by the scanner. -/
def patMatches (q s : String) (l : List Char) : Bool :=
  (patList q s).isPrefixOf l && boundaryAfter (l.drop (patLen q s))

/-- Modelled from the spec: the first (qualifier, old, new) combination whose
pattern matches at the current position, among all qualifier/rule pairs. -/
def findMatch (P : List (String × String × String)) (l : List Char) :
    Option (String × String × String) :=
  P.find? fun e => patMatches e.1 e.2.1 l

/-- Left-boundary state after emitting a replacement: the scanner resumes with
the boundary flag of the last inserted character. -/
def repOk (n : String) : Bool :=
  match n.data.getLast? with
  | none => true
  | some c => !isIdentChar c

/-- Modelled from the spec: the single conceptual pass over the original
content (spec 4.3 steps 2-3), fuel-indexed for structural recursion. The Bool
argument records whether the previous character was an identifier boundary
(true at the start of the content). A matched occurrence is replaced by
qualifier-separator-new, the original qualifier preserved exactly, and the
scan resumes after the matched occurrence, so no replacement output is
re-matched in the same run. -/
def rewriteFromF (P : List (String × String × String)) :
    Nat → Bool → List Char → List Char
  | 0, _, l => l
  | _ + 1, _, [] => []
  | fuel + 1, b, c :: cs =>
    match (if b then findMatch P (c :: cs) else none) with
    | some (q, o, n) =>
        patList q n ++ rewriteFromF P fuel (repOk n) ((c :: cs).drop (patLen q o))
    | none => c :: rewriteFromF P fuel (!isIdentChar c) cs

/-- The single pass with enough fuel to consume the whole content. -/
def rewriteFrom (P : List (String × String × String)) (b : Bool) (l : List Char) :
    List Char :=
  rewriteFromF P l.length b l

/-- Modelled from the spec: every (qualifier, rule) pair — each rule is
matched under every qualifier in the qualifier set (spec 3, QualifierSet). -/
def pairsOf : List String → List (String × String) → List (String × String × String)
  | [], _ => []
  | q :: qs, rules => (rules.map fun r => (q, r.1, r.2)) ++ pairsOf qs rules

/-- Modelled from the spec: the content transformation of the Rewrite Engine —
one pass of qualifier-aware substitution over the original content. -/
def rewriteContent (rules : List (String × String)) (qs : List String)
    (s : String) : String :=
  ⟨rewriteFrom (pairsOf qs rules) true s.data⟩

/-- Modelled from the spec: per-file processing errors (spec 7). -/
inductive FileError where
  | readErr
  | writeErr
deriving DecidableEq

/-- Modelled from the spec: a file of the tree, with its path, content and
whether reading and writing it succeed (spec 4.3 steps 1 and 4). -/
structure FileEntry where
  path : String
  content : String
  readable : Bool
  writable : Bool
deriving DecidableEq

/-- Modelled from the spec: FileOutcome — path, whether the file changed, and
an optional per-file error (spec 3). -/
structure FileOutcome where
  path : String
  changed : Bool
  error : Option FileError
deriving DecidableEq

/-- Modelled from the spec: processing of one file (spec 4.3): a failed read
is recorded and skips the file; unchanged content performs no write; changed
content is written back in place, and a failed write leaves the original
untouched. The Bool component records whether a write was performed. -/
def processFile (rules : List (String × String)) (qs : List String)
    (f : FileEntry) : FileEntry × FileOutcome × Bool :=
  if f.readable = false then
    (f, ⟨f.path, false, some FileError.readErr⟩, false)
  else
    let t := rewriteContent rules qs f.content
    if t = f.content then
      (f, ⟨f.path, false, none⟩, false)
    else if f.writable then
      (FileEntry.mk f.path t f.readable f.writable, ⟨f.path, true, none⟩, true)
    else
      (f, ⟨f.path, false, some FileError.writeErr⟩, false)

/-- Modelled from the spec: one run of the engine over a tree — every file is
processed, a per-file failure never aborts the run (spec 5). Returns the tree
after the run and the stream of outcomes. -/
def runEngine (rules : List (String × String)) (qs : List String)
    (fs : List FileEntry) : List FileEntry × List FileOutcome :=
  (fs.map fun f => (processFile rules qs f).1,
   fs.map fun f => (processFile rules qs f).2.1)

/-- Modelled from the spec: RunSummary (spec 3) — files scanned successfully,
files modified, the modified paths, and the failed paths with their errors. -/
structure RunSummary where
  totalScanned : Nat
  totalModified : Nat
  modifiedPaths : List String
  failedPaths : List (String × FileError)
deriving DecidableEq

/-- Modelled from the spec: the Reporter aggregation of outcomes (spec 4.4):
counts and path lists built from the outcome stream. -/
def report (outs : List FileOutcome) : RunSummary :=
  ⟨(outs.filter fun o => o.error.isNone).length,
   (outs.filter fun o => o.changed).length,
   (outs.filter fun o => o.changed).map fun o => o.path,
   outs.filterMap fun o => o.error.map fun e => (o.path, e)⟩

/-- Modelled from the spec: Rule Table construction (spec 4.1) — fails with a
ConfigError when any old symbol appears twice with different replacements. -/
def buildRuleTable (rules : List (String × String)) :
    Option (List (String × String)) :=
  if rules.all (fun r => rules.all fun e => !(r.1 == e.1) || r.2 == e.2) then
    some rules
  else none

/-- Modelled from the spec: result of one invocation of the command surface —
the emitted summary, if any, and the process exit status (spec 6). -/
structure CliResult where
  output : Option RunSummary
  exitCode : Nat
deriving DecidableEq

/-- Modelled from the spec: the command surface (spec 6) — a run aborts with a
nonzero exit status only when the Rule Table fails to construct or the root is
inaccessible (modelled as an absent tree); a completed run emits the summary
and exits 0 independently of whether any files were modified. -/
def runCli (rules : List (String × String)) (qs : List String)
    (root : Option (List FileEntry)) : CliResult :=
  match buildRuleTable rules with
  | none => ⟨none, 1⟩
  | some tbl =>
    match root with
    | none => ⟨none, 1⟩
    | some fs => ⟨some (report (runEngine tbl qs fs).2), 0⟩

end Engine

namespace Engine

/-- Identifier strings: nonempty and made of identifier characters only. -/
def identL (l : List Char) : Bool := !l.isEmpty && l.all isIdentChar

theorem dot_not_ident : isIdentChar '.' = false := by decide

theorem dot_not_mem_of_all_ident {l : List Char} (h : l.all isIdentChar = true) :
    '.' ∉ l := by
  intro hm
  have h2 := List.all_eq_true.mp h '.' hm
  rw [dot_not_ident] at h2
  exact Bool.noConfusion h2

theorem identL_ne_nil {l : List Char} (h : identL l = true) : l ≠ [] := by
  have h2 := (Bool.and_eq_true _ _).mp h
  exact List.isEmpty_eq_false.mp (by simpa using h2.1)

theorem identL_all {l : List Char} (h : identL l = true) : l.all isIdentChar = true :=
  ((Bool.and_eq_true _ _).mp h).2

theorem ident_of_mem_of_all {l : List Char} {c : Char}
    (h : l.all isIdentChar = true) (hc : c ∈ l) : isIdentChar c = true :=
  List.all_eq_true.mp h c hc

theorem boundaryAfter_nil : boundaryAfter [] = true := rfl

theorem boundaryAfter_cons (c : Char) (t : List Char) :
    boundaryAfter (c :: t) = !isIdentChar c := rfl

theorem prefix_split {α : Type} {m : List α} :
    ∀ {l : List α} {t : List α}, l <+: m ++ t →
      (l.length ≤ m.length ∧ l <+: m) ∨ (m <+: l ∧ l.drop m.length <+: t) := by
  induction m with
  | nil =>
    intro l t h
    exact Or.inr ⟨List.nil_prefix, by simpa using h⟩
  | cons a m ih =>
    intro l t h
    cases l with
    | nil => exact Or.inl ⟨by simp, List.nil_prefix⟩
    | cons x l =>
      obtain ⟨hx, hl⟩ := List.cons_prefix_cons.mp h
      rcases ih hl with ⟨hlen, hp⟩ | ⟨hp, hd⟩
      · exact Or.inl ⟨by simpa using Nat.succ_le_succ hlen,
          List.cons_prefix_cons.mpr ⟨hx, hp⟩⟩
      · refine Or.inr ⟨List.cons_prefix_cons.mpr ⟨hx.symm, hp⟩, ?_⟩
        simpa [List.drop_succ_cons] using hd

theorem prefix_drop_of_append_prefix {α : Type} {a b m : List α}
    (h : a ++ b <+: m) : b <+: m.drop a.length := by
  obtain ⟨t, ht⟩ := h
  subst ht
  rw [List.append_assoc, List.drop_left]
  exact List.prefix_append b t

theorem dot_split {xs ys xs2 ys2 : List Char} (hx : '.' ∉ xs) (hx2 : '.' ∉ xs2)
    (h : xs ++ '.' :: ys <+: xs2 ++ '.' :: ys2) : xs = xs2 ∧ ys <+: ys2 := by
  induction xs generalizing xs2 with
  | nil =>
    cases xs2 with
    | nil => exact ⟨rfl, by simpa using h⟩
    | cons a t =>
      obtain ⟨ha, -⟩ := List.cons_prefix_cons.mp (by simpa using h)
      exact absurd (ha ▸ List.mem_cons_self a t) hx2
  | cons x xs ih =>
    cases xs2 with
    | nil =>
      obtain ⟨ha, -⟩ := List.cons_prefix_cons.mp (by simpa using h)
      exact absurd (ha ▸ List.mem_cons_self x xs) hx
    | cons a t =>
      obtain ⟨ha, hp⟩ := List.cons_prefix_cons.mp (by simpa using h)
      have hx' : '.' ∉ xs := fun hm => hx (List.mem_cons_of_mem _ hm)
      have hx2' : '.' ∉ t := fun hm => hx2 (List.mem_cons_of_mem _ hm)
      obtain ⟨he, hys⟩ := ih hx' hx2' hp
      exact ⟨by rw [ha, he], hys⟩

theorem ident_run_prefix {ys m t : List Char} (hys : ys.all isIdentChar = true)
    (hm : m.all isIdentChar = true)
    (ht : t = [] ∨ ∃ r t2, t = r :: t2 ∧ isIdentChar r = false)
    (hpre : ys <+: m ++ t)
    (hb : boundaryAfter ((m ++ t).drop ys.length) = true) : ys = m := by
  rcases prefix_split hpre with ⟨hlen, hp⟩ | ⟨hp, hd⟩
  · rcases Nat.lt_or_ge ys.length m.length with hlt | hge
    · exfalso
      have hdrop : (m ++ t).drop ys.length = m.drop ys.length ++ t := by
        rw [List.drop_append_eq_append_drop, Nat.sub_eq_zero_of_le (Nat.le_of_lt hlt)]
        rfl
      have hne : m.drop ys.length ≠ [] := by
        intro hnil
        have := List.length_drop ys.length m
        rw [hnil] at this
        simp at this
        omega
      obtain ⟨c, cs2, hc⟩ := List.exists_cons_of_ne_nil hne
      have hcm : c ∈ m := List.mem_of_mem_drop (hc ▸ List.mem_cons_self c cs2)
      rw [hdrop, hc] at hb
      rw [List.cons_append, boundaryAfter_cons, ident_of_mem_of_all hm hcm] at hb
      exact Bool.noConfusion hb
    · exact hp.eq_of_length (Nat.le_antisymm hlen hge)
  · cases hd2 : ys.drop m.length with
    | nil =>
      have hlen2 := List.length_drop m.length ys
      rw [hd2] at hlen2
      simp at hlen2
      have hle : ys.length ≤ m.length := by omega
      exact (hp.eq_of_length (Nat.le_antisymm hp.length_le hle)).symm
    | cons c cs2 =>
      exfalso
      have hcy : c ∈ ys := List.mem_of_mem_drop (hd2 ▸ List.mem_cons_self c cs2)
      rw [hd2] at hd
      rcases ht with ht | ⟨r, t2, ht, hr⟩
      · rw [ht] at hd
        exact absurd (List.prefix_nil.mp hd) (by simp)
      · rw [ht] at hd
        obtain ⟨hcr, -⟩ := List.cons_prefix_cons.mp hd
        rw [hcr] at hcy
        rw [ident_of_mem_of_all hys hcy] at hr
        exact Bool.noConfusion hr

end Engine

namespace Engine

theorem patLen_eq_length (q s : String) : patLen q s = (patList q s).length := by
  simp [patLen, patList]
  omega

theorem patLen_pos (q s : String) : 1 ≤ patLen q s := by
  simp [patLen]
  omega

theorem patMatches_iff {q s : String} {l : List Char} :
    patMatches q s l = true ↔
      (patList q s <+: l ∧ boundaryAfter (l.drop (patLen q s)) = true) := by
  simp [patMatches, List.isPrefixOf_iff_prefix, Bool.and_eq_true]

theorem patMatches_decomp {q s : String} {l : List Char}
    (h : patMatches q s l = true) :
    l = patList q s ++ l.drop (patLen q s) ∧
      boundaryAfter (l.drop (patLen q s)) = true := by
  obtain ⟨hp, hb⟩ := patMatches_iff.mp h
  refine ⟨?_, hb⟩
  obtain ⟨t, ht⟩ := hp
  have hdrop : l.drop (patLen q s) = t := by
    rw [← ht, patLen_eq_length, List.drop_left]
  rw [hdrop, ht]

theorem drop_patList (qd X : List Char) (k : Nat) :
    (qd ++ '.' :: X).drop (qd.length + 1 + k) = X.drop k := by
  have h1 : qd ++ '.' :: X = (qd ++ ['.']) ++ X := by simp
  have h2 : qd.length + 1 + k = (qd ++ ['.']).length + k := by simp
  rw [h1, h2, List.drop_append]

theorem findMatch_mem_patMatches {P : List (String × String × String)}
    {l : List Char} {q o n : String} (h : findMatch P l = some (q, o, n)) :
    (q, o, n) ∈ P ∧ patMatches q o l = true := by
  have h2 : P.find? (fun e => patMatches e.1 e.2.1 l) = some (q, o, n) := h
  exact ⟨List.mem_of_find?_eq_some h2, by simpa using List.find?_some h2⟩

theorem rewriteFromF_fuel_eq (P : List (String × String × String)) :
    ∀ f1 f2 b (l : List Char), l.length ≤ f1 → l.length ≤ f2 →
      rewriteFromF P f1 b l = rewriteFromF P f2 b l := by
  intro f1
  induction f1 with
  | zero =>
    intro f2 b l h1 _
    have hl : l = [] := List.eq_nil_of_length_eq_zero (Nat.le_zero.mp h1)
    subst hl
    cases f2 <;> rfl
  | succ f1 ih =>
    intro f2 b l h1 h2
    cases l with
    | nil => cases f2 <;> rfl
    | cons c cs =>
      cases f2 with
      | zero => simp at h2
      | succ f2 =>
        show (match (if b then findMatch P (c :: cs) else none) with
          | some (q, o, n) =>
              patList q n ++ rewriteFromF P f1 (repOk n) ((c :: cs).drop (patLen q o))
          | none => c :: rewriteFromF P f1 (!isIdentChar c) cs) =
          (match (if b then findMatch P (c :: cs) else none) with
          | some (q, o, n) =>
              patList q n ++ rewriteFromF P f2 (repOk n) ((c :: cs).drop (patLen q o))
          | none => c :: rewriteFromF P f2 (!isIdentChar c) cs)
        cases hm : (if b then findMatch P (c :: cs) else none) with
        | none =>
          have hcs : cs.length ≤ f1 := by simp at h1; omega
          have hcs2 : cs.length ≤ f2 := by simp at h2; omega
          simp only []
          rw [ih f2 (!isIdentChar c) cs hcs hcs2]
        | some e =>
          obtain ⟨q, o, n⟩ := e
          have hlen : ((c :: cs).drop (patLen q o)).length ≤ f1 := by
            rw [List.length_drop]
            have := patLen_pos q o
            simp at h1 ⊢
            omega
          have hlen2 : ((c :: cs).drop (patLen q o)).length ≤ f2 := by
            rw [List.length_drop]
            have := patLen_pos q o
            simp at h2 ⊢
            omega
          simp only []
          rw [ih f2 (repOk n) ((c :: cs).drop (patLen q o)) hlen hlen2]

theorem rewriteFrom_cons_none {P : List (String × String × String)} {b : Bool}
    {c : Char} {cs : List Char}
    (h : (if b then findMatch P (c :: cs) else none) = none) :
    rewriteFrom P b (c :: cs) = c :: rewriteFrom P (!isIdentChar c) cs := by
  show rewriteFromF P (cs.length + 1) b (c :: cs) = c :: rewriteFromF P cs.length (!isIdentChar c) cs
  show (match (if b then findMatch P (c :: cs) else none) with
    | some (q, o, n) =>
        patList q n ++ rewriteFromF P cs.length (repOk n) ((c :: cs).drop (patLen q o))
    | none => c :: rewriteFromF P cs.length (!isIdentChar c) cs) =
    c :: rewriteFromF P cs.length (!isIdentChar c) cs
  rw [h]

theorem rewriteFrom_cons_false {P : List (String × String × String)}
    {c : Char} {cs : List Char} :
    rewriteFrom P false (c :: cs) = c :: rewriteFrom P (!isIdentChar c) cs :=
  rewriteFrom_cons_none rfl

theorem rewriteFrom_cons_nomatch {P : List (String × String × String)}
    {c : Char} {cs : List Char} (h : findMatch P (c :: cs) = none) (b : Bool) :
    rewriteFrom P b (c :: cs) = c :: rewriteFrom P (!isIdentChar c) cs := by
  cases b
  · exact rewriteFrom_cons_false
  · exact rewriteFrom_cons_none (by simpa using h)

theorem rewriteFrom_match {P : List (String × String × String)} {q o n : String}
    {l : List Char} (h : findMatch P l = some (q, o, n)) (hl : l ≠ []) :
    rewriteFrom P true l = patList q n ++ rewriteFrom P (repOk n) (l.drop (patLen q o)) := by
  obtain ⟨c, cs, rfl⟩ := List.exists_cons_of_ne_nil hl
  show rewriteFromF P (cs.length + 1) true (c :: cs) = _
  have hstep : rewriteFromF P (cs.length + 1) true (c :: cs) =
      (match (if true then findMatch P (c :: cs) else none) with
      | some (q, o, n) =>
          patList q n ++ rewriteFromF P cs.length (repOk n) ((c :: cs).drop (patLen q o))
      | none => c :: rewriteFromF P cs.length (!isIdentChar c) cs) := rfl
  rw [hstep, if_pos rfl, h]
  have hlen : ((c :: cs).drop (patLen q o)).length ≤ cs.length := by
    rw [List.length_drop]
    have := patLen_pos q o
    simp
    omega
  show patList q n ++ rewriteFromF P cs.length (repOk n) ((c :: cs).drop (patLen q o)) =
    patList q n ++ rewriteFrom P (repOk n) ((c :: cs).drop (patLen q o))
  rw [rewriteFromF_fuel_eq P cs.length ((c :: cs).drop (patLen q o)).length
    (repOk n) ((c :: cs).drop (patLen q o)) hlen (Nat.le_refl _)]
  rfl

theorem findMatch_none_of_no_dot {P : List (String × String × String)}
    {l : List Char} (h : '.' ∉ l) : findMatch P l = none := by
  apply List.find?_eq_none.mpr
  intro e _ hpm
  obtain ⟨hp, -⟩ := patMatches_iff.mp hpm
  exact h (hp.subset (by simp [patList]))

theorem rewriteFrom_no_dot {P : List (String × String × String)} :
    ∀ {l : List Char} (b : Bool), '.' ∉ l → rewriteFrom P b l = l := by
  intro l
  induction l with
  | nil => intro b _; rfl
  | cons c cs ih =>
    intro b h
    rw [rewriteFrom_cons_nomatch (findMatch_none_of_no_dot h) b]
    rw [ih (!isIdentChar c) fun hm => h (List.mem_cons_of_mem _ hm)]

theorem rewriteFrom_ident_append {P : List (String × String × String)} :
    ∀ {m : List Char} (t : List Char), m.all isIdentChar = true →
      rewriteFrom P false (m ++ t) = m ++ rewriteFrom P false t := by
  intro m
  induction m with
  | nil => intro t _; rfl
  | cons c m ih =>
    intro t h
    have hc : isIdentChar c = true := List.all_eq_true.mp h c (List.mem_cons_self c m)
    have hm : m.all isIdentChar = true := by
      apply List.all_eq_true.mpr
      intro x hx
      exact List.all_eq_true.mp h x (List.mem_cons_of_mem _ hx)
    rw [List.cons_append, rewriteFrom_cons_false, hc]
    show c :: rewriteFrom P false (m ++ t) = c :: (m ++ rewriteFrom P false t)
    rw [ih t hm]

end Engine

namespace Engine

/-- Relation between an original content and a possible output of the single
pass: the output copies characters and replaces matched occurrences of
qualifier-separator-old (followed by a boundary) with
qualifier-separator-new. -/
inductive Rel (P : List (String × String × String)) : List Char → List Char → Prop
  | nil : Rel P [] []
  | copy (c : Char) {l out : List Char} : Rel P l out → Rel P (c :: l) (c :: out)
  | rep {q o n : String} {rest out2 : List Char} :
      (q, o, n) ∈ P → boundaryAfter rest = true → Rel P rest out2 →
      Rel P (patList q o ++ rest) (patList q n ++ out2)

theorem Rel.head_eq {P : List (String × String × String)} {l out : List Char}
    (h : Rel P l out) : l.head? = out.head? := by
  induction h with
  | nil => rfl
  | copy c _ _ => rfl
  | rep hmem hb hrel ih =>
    rename_i q o n rest out2
    cases hq : q.data <;> simp [patList, hq]

theorem Rel.eq_nil_iff {P : List (String × String × String)} {l out : List Char}
    (h : Rel P l out) : l = [] ↔ out = [] := by
  have := h.head_eq
  constructor
  · intro hl; subst hl
    cases out with
    | nil => rfl
    | cons c t => simp at this
  · intro hl; subst hl
    cases l with
    | nil => rfl
    | cons c t => simp at this

theorem rel_rewriteFrom (P : List (String × String × String)) :
    ∀ (N : Nat) (l : List Char) (b : Bool), l.length ≤ N →
      Rel P l (rewriteFrom P b l) := by
  intro N
  induction N with
  | zero =>
    intro l b h
    have hl : l = [] := List.eq_nil_of_length_eq_zero (Nat.le_zero.mp h)
    subst hl
    exact Rel.nil
  | succ N ih =>
    intro l b h
    cases l with
    | nil => exact Rel.nil
    | cons c cs =>
      cases hm : (if b then findMatch P (c :: cs) else none) with
      | none =>
        rw [rewriteFrom_cons_none hm]
        exact Rel.copy c (ih cs (!isIdentChar c) (by simp at h; omega))
      | some e =>
        obtain ⟨q, o, n⟩ := e
        have hb : b = true := by
          cases b
          · simp at hm
          · rfl
        subst hb
        have hfm : findMatch P (c :: cs) = some (q, o, n) := by simpa using hm
        obtain ⟨hmem, hpm⟩ := findMatch_mem_patMatches hfm
        obtain ⟨hsplit, hbrest⟩ := patMatches_decomp hpm
        rw [rewriteFrom_match hfm (by simp)]
        have hlen : ((c :: cs).drop (patLen q o)).length ≤ N := by
          rw [List.length_drop]
          have := patLen_pos q o
          simp at h ⊢
          omega
        have hrel := ih ((c :: cs).drop (patLen q o)) (repOk n) hlen
        have := Rel.rep hmem hbrest hrel
        rw [← hsplit] at this
        exact this

/-- Well-formedness of the qualifier/rule pairs: qualifiers and symbols are
identifiers, and no new symbol coincides with any old symbol or any
qualifier. -/
def GoodP (P : List (String × String × String)) : Prop :=
  (∀ e ∈ P, identL e.1.data = true ∧ identL e.2.1.data = true ∧ identL e.2.2.data = true) ∧
  (∀ e ∈ P, ∀ e2 ∈ P, e.2.2.data ≠ e2.2.1.data) ∧
  (∀ e ∈ P, ∀ e2 ∈ P, e.2.2.data ≠ e2.1.data)

theorem patList_eq_append_cons (q s : String) (t : List Char) :
    patList q s ++ t = q.data ++ '.' :: (s.data ++ t) := by
  simp [patList]

theorem patMatches_repBlock_false {P : List (String × String × String)}
    (hg : GoodP P) {q o n : String} (hmem : (q, o, n) ∈ P) {out2 : List Char}
    (hout : out2 = [] ∨ ∃ r t, out2 = r :: t ∧ isIdentChar r = false)
    {e : String × String × String} (he : e ∈ P) :
    patMatches e.1 e.2.1 (patList q n ++ out2) = false := by
  obtain ⟨hqI, hoI, hnI⟩ := hg.1 (q, o, n) hmem
  obtain ⟨heqI, heoI, -⟩ := hg.1 e he
  cases hpm : patMatches e.1 e.2.1 (patList q n ++ out2) with
  | false => rfl
  | true =>
    exfalso
    obtain ⟨hp, hb⟩ := patMatches_iff.mp hpm
    rw [patList_eq_append_cons] at hp hb
    have hdq : '.' ∉ e.1.data := dot_not_mem_of_all_ident (identL_all heqI)
    have hdq2 : '.' ∉ q.data := dot_not_mem_of_all_ident (identL_all hqI)
    obtain ⟨hqe, hyp⟩ := dot_split hdq hdq2 hp
    have hbd : boundaryAfter ((n.data ++ out2).drop e.2.1.data.length) = true := by
      have harith : patLen e.1 e.2.1 = q.data.length + 1 + e.2.1.data.length := by
        rw [patLen, hqe]
      rw [harith, drop_patList] at hb
      exact hb
    have heq := ident_run_prefix (identL_all heoI) (identL_all hnI) hout hyp hbd
    exact hg.2.1 (q, o, n) hmem e he heq.symm

theorem patMatches_midBlock_false {P : List (String × String × String)}
    (hg : GoodP P) {q o n : String} (hmem : (q, o, n) ∈ P) {out2 : List Char}
    (hout : out2 = [] ∨ ∃ r t, out2 = r :: t ∧ isIdentChar r = false)
    {e : String × String × String} (he : e ∈ P) :
    patMatches e.1 e.2.1 (n.data ++ out2) = false := by
  obtain ⟨-, -, hnI⟩ := hg.1 (q, o, n) hmem
  obtain ⟨heqI, heoI, -⟩ := hg.1 e he
  cases hpm : patMatches e.1 e.2.1 (n.data ++ out2) with
  | false => rfl
  | true =>
    exfalso
    obtain ⟨hp, -⟩ := patMatches_iff.mp hpm
    rw [patList] at hp
    have hq' : e.1.data <+: n.data ++ out2 :=
      (List.prefix_append e.1.data ('.' :: e.2.1.data)).trans hp
    rcases prefix_split hq' with ⟨hlen, hqp⟩ | ⟨hqp, hd⟩
    · rcases Nat.lt_or_ge e.1.data.length n.data.length with hlt | hge
      · have hdp : '.' :: e.2.1.data <+: (n.data ++ out2).drop e.1.data.length :=
          prefix_drop_of_append_prefix hp
        have hdrop : (n.data ++ out2).drop e.1.data.length =
            n.data.drop e.1.data.length ++ out2 := by
          rw [List.drop_append_eq_append_drop, Nat.sub_eq_zero_of_le (Nat.le_of_lt hlt)]
          rfl
        have hne : n.data.drop e.1.data.length ≠ [] := by
          intro hnil
          have := List.length_drop e.1.data.length n.data
          rw [hnil] at this
          simp only [List.length_nil] at this
          omega
        obtain ⟨c, cs2, hc⟩ := List.exists_cons_of_ne_nil hne
        have hcm : c ∈ n.data := List.mem_of_mem_drop (hc ▸ List.mem_cons_self c cs2)
        rw [hdrop, hc, List.cons_append] at hdp
        obtain ⟨hcdot, -⟩ := List.cons_prefix_cons.mp hdp
        have := ident_of_mem_of_all (identL_all hnI) hcm
        rw [← hcdot, dot_not_ident] at this
        exact Bool.noConfusion this
      · have heq := hqp.eq_of_length (Nat.le_antisymm hlen hge)
        exact hg.2.2 (q, o, n) hmem e he heq.symm
    · cases hd2 : e.1.data.drop n.data.length with
      | nil =>
        have hlen2 := List.length_drop n.data.length e.1.data
        rw [hd2] at hlen2
        simp only [List.length_nil] at hlen2
        have hle : e.1.data.length ≤ n.data.length := by omega
        have heq := (hqp.eq_of_length (Nat.le_antisymm hqp.length_le hle)).symm
        exact hg.2.2 (q, o, n) hmem e he heq.symm
      | cons c cs2 =>
        have hcy : c ∈ e.1.data := List.mem_of_mem_drop (hd2 ▸ List.mem_cons_self c cs2)
        rw [hd2] at hd
        rcases hout with hout | ⟨r, t2, hout, hr⟩
        · rw [hout] at hd
          exact absurd (List.prefix_nil.mp hd) (by simp)
        · rw [hout] at hd
          obtain ⟨hcr, -⟩ := List.cons_prefix_cons.mp hd
          rw [hcr] at hcy
          rw [ident_of_mem_of_all (identL_all heqI) hcy] at hr
          exact Bool.noConfusion hr

end Engine

namespace Engine

theorem qual_prefix_concl {q o : String} {rest : List Char} :
    q.data <+: patList q o ++ rest ∧
      boundaryAfter ((patList q o ++ rest).drop q.data.length) = true := by
  constructor
  · rw [patList_eq_append_cons]
    exact List.prefix_append q.data ('.' :: (o.data ++ rest))
  · rw [patList_eq_append_cons, List.drop_left]
    simp [boundaryAfter_cons, dot_not_ident]

theorem out_head_boundary {P : List (String × String × String)} {rest out2 : List Char}
    (hrel : Rel P rest out2) (hb : boundaryAfter rest = true) :
    out2 = [] ∨ ∃ r t, out2 = r :: t ∧ isIdentChar r = false := by
  cases rest with
  | nil => exact Or.inl (hrel.eq_nil_iff.mp rfl)
  | cons r rt =>
    have hh := hrel.head_eq
    cases out2 with
    | nil => simp at hh
    | cons r2 t2 =>
      simp at hh
      refine Or.inr ⟨r2, t2, rfl, ?_⟩
      rw [boundaryAfter_cons] at hb
      rw [← hh]
      simpa using hb

theorem relS2 {P : List (String × String × String)} (hg : GoodP P) {l out : List Char}
    (h : Rel P l out) :
    ∀ ys : List Char, ys.all isIdentChar = true → ys <+: out →
      boundaryAfter (out.drop ys.length) = true →
      ys <+: l ∧ boundaryAfter (l.drop ys.length) = true := by
  induction h with
  | nil =>
    intro ys _ hp hb
    have hnil := List.prefix_nil.mp hp
    subst hnil
    exact ⟨List.nil_prefix, hb⟩
  | copy c hrel ih =>
    rename_i l0 out0
    intro ys hysI hp hb
    cases ys with
    | nil =>
      refine ⟨List.nil_prefix, ?_⟩
      simpa [boundaryAfter_cons] using hb
    | cons y ys0 =>
      obtain ⟨hyc, hyp⟩ := List.cons_prefix_cons.mp hp
      have hys0I : ys0.all isIdentChar = true := by
        apply List.all_eq_true.mpr
        intro a ha
        exact List.all_eq_true.mp hysI a (List.mem_cons_of_mem _ ha)
      have hb2 : boundaryAfter (out0.drop ys0.length) = true := by
        simpa [List.drop_succ_cons] using hb
      obtain ⟨hyl, hbl⟩ := ih ys0 hys0I hyp hb2
      refine ⟨List.cons_prefix_cons.mpr ⟨hyc, hyl⟩, ?_⟩
      simpa [List.drop_succ_cons] using hbl
  | rep hmem hb0 hrel ih =>
    rename_i q o n rest out2
    intro ys hysI hp hb
    obtain ⟨hqI, hoI, hnI⟩ := hg.1 _ hmem
    rw [patList_eq_append_cons] at hp hb
    rcases prefix_split hp with ⟨hlen, hqp⟩ | ⟨hqp, hd⟩
    · rcases Nat.lt_or_ge ys.length q.data.length with hlt | hge
      · exfalso
        have hdrop : (q.data ++ '.' :: (n.data ++ out2)).drop ys.length =
            q.data.drop ys.length ++ '.' :: (n.data ++ out2) := by
          rw [List.drop_append_eq_append_drop, Nat.sub_eq_zero_of_le (Nat.le_of_lt hlt)]
          rfl
        have hne : q.data.drop ys.length ≠ [] := by
          intro hnil
          have := List.length_drop ys.length q.data
          rw [hnil] at this
          simp only [List.length_nil] at this
          omega
        obtain ⟨c, cs2, hc⟩ := List.exists_cons_of_ne_nil hne
        have hcm : c ∈ q.data := List.mem_of_mem_drop (hc ▸ List.mem_cons_self c cs2)
        rw [hdrop, hc, List.cons_append, boundaryAfter_cons,
          ident_of_mem_of_all (identL_all hqI) hcm] at hb
        exact Bool.noConfusion hb
      · have heq := hqp.eq_of_length (Nat.le_antisymm hlen hge)
        subst heq
        exact qual_prefix_concl
    · cases hd2 : ys.drop q.data.length with
      | nil =>
        have hlen2 := List.length_drop q.data.length ys
        rw [hd2] at hlen2
        simp only [List.length_nil] at hlen2
        have hle : ys.length ≤ q.data.length := by omega
        have heq := (hqp.eq_of_length (Nat.le_antisymm hqp.length_le hle)).symm
        subst heq
        exact qual_prefix_concl
      | cons c cs2 =>
        exfalso
        have hcy : c ∈ ys := List.mem_of_mem_drop (hd2 ▸ List.mem_cons_self c cs2)
        rw [hd2] at hd
        obtain ⟨hcdot, -⟩ := List.cons_prefix_cons.mp hd
        have hci := ident_of_mem_of_all hysI hcy
        rw [hcdot, dot_not_ident] at hci
        exact Bool.noConfusion hci

theorem relS1 {P : List (String × String × String)} (hg : GoodP P) {l out : List Char}
    (h : Rel P l out) :
    ∀ xs ys : List Char, xs.all isIdentChar = true → ys.all isIdentChar = true →
      (∃ e ∈ P, ys = e.2.1.data) →
      xs ++ '.' :: ys <+: out →
      boundaryAfter (out.drop (xs.length + 1 + ys.length)) = true →
      xs ++ '.' :: ys <+: l ∧
        boundaryAfter (l.drop (xs.length + 1 + ys.length)) = true := by
  induction h with
  | nil =>
    intro xs ys _ _ _ hp _
    exfalso
    have := List.prefix_nil.mp hp
    simp at this
  | copy c hrel ih =>
    rename_i l0 out0
    intro xs ys hxsI hysI hold hp hb
    cases xs with
    | nil =>
      obtain ⟨hcdot, hyp⟩ := List.cons_prefix_cons.mp (by simpa using hp)
      have hb2 : boundaryAfter (out0.drop ys.length) = true := by
        have harr : ([] : List Char).length + 1 + ys.length = ys.length + 1 := by
          simp only [List.length_nil]
          omega
        rw [harr, List.drop_succ_cons] at hb
        exact hb
      obtain ⟨hyl, hbl⟩ := relS2 hg hrel ys hysI hyp hb2
      constructor
      · simpa using List.cons_prefix_cons.mpr ⟨hcdot, hyl⟩
      · have harr : ([] : List Char).length + 1 + ys.length = ys.length + 1 := by
          simp only [List.length_nil]
          omega
        rw [harr, List.drop_succ_cons]
        exact hbl
    | cons x xs0 =>
      obtain ⟨hxc, hp2⟩ := List.cons_prefix_cons.mp (by simpa using hp)
      have hxs0I : xs0.all isIdentChar = true := by
        apply List.all_eq_true.mpr
        intro a ha
        exact List.all_eq_true.mp hxsI a (List.mem_cons_of_mem _ ha)
      have harr : (x :: xs0).length + 1 + ys.length = (xs0.length + 1 + ys.length) + 1 := by
        simp
        omega
      have hb2 : boundaryAfter (out0.drop (xs0.length + 1 + ys.length)) = true := by
        rw [harr, List.drop_succ_cons] at hb
        exact hb
      obtain ⟨hl, hbl⟩ := ih xs0 ys hxs0I hysI hold hp2 hb2
      constructor
      · show x :: (xs0 ++ '.' :: ys) <+: c :: l0
        exact List.cons_prefix_cons.mpr ⟨hxc, hl⟩
      · rw [harr, List.drop_succ_cons]
        exact hbl
  | rep hmem hb0 hrel ih =>
    rename_i q o n rest out2
    intro xs ys hxsI hysI hold hp hb
    exfalso
    obtain ⟨hqI, hoI, hnI⟩ := hg.1 _ hmem
    rw [patList_eq_append_cons] at hp hb
    have hdx : '.' ∉ xs := dot_not_mem_of_all_ident hxsI
    have hdq : '.' ∉ q.data := dot_not_mem_of_all_ident (identL_all hqI)
    obtain ⟨hxq, hyp⟩ := dot_split hdx hdq hp
    have hb2 : boundaryAfter ((n.data ++ out2).drop ys.length) = true := by
      rw [hxq, drop_patList] at hb
      exact hb
    have hout2 := out_head_boundary hrel hb0
    have heq := ident_run_prefix hysI (identL_all hnI) hout2 hyp hb2
    obtain ⟨e, he, hyse⟩ := hold
    exact hg.2.1 (q, o, n) hmem e he (by rw [← hyse, heq])

theorem rel_no_new_match {P : List (String × String × String)} (hg : GoodP P)
    {l out : List Char} (h : Rel P l out) (hl : findMatch P l = none) :
    findMatch P out = none := by
  apply List.find?_eq_none.mpr
  intro e he hpm
  have hpm2 : patMatches e.1 e.2.1 out = true := by simpa using hpm
  obtain ⟨hp, hb⟩ := patMatches_iff.mp hpm2
  obtain ⟨heqI, heoI, -⟩ := hg.1 e he
  rw [patList] at hp
  rw [patLen] at hb
  obtain ⟨hpl, hbl⟩ := relS1 hg h e.1.data e.2.1.data (identL_all heqI)
    (identL_all heoI) ⟨e, he, rfl⟩ hp hb
  have hcontra := List.find?_eq_none.mp hl e he
  apply hcontra
  show patMatches e.1 e.2.1 l = true
  apply patMatches_iff.mpr
  constructor
  · rw [patList]
    exact hpl
  · rw [patLen]
    exact hbl

end Engine

namespace Engine

theorem repOk_false_of_ident {n : String} (h : identL n.data = true) :
    repOk n = false := by
  rcases List.eq_nil_or_concat n.data with hnil | ⟨L, b, hcat⟩
  · exact absurd hnil (identL_ne_nil h)
  · have hb : isIdentChar b = true :=
      ident_of_mem_of_all (identL_all h) (by rw [hcat]; simp)
    show (match n.data.getLast? with
      | none => true
      | some c => !isIdentChar c) = false
    rw [hcat, List.concat_eq_append, List.getLast?_concat]
    simp [hb]

theorem rewriteFrom_idem {P : List (String × String × String)} (hg : GoodP P) :
    ∀ (N : Nat) (l : List Char) (b : Bool), l.length ≤ N →
      rewriteFrom P b (rewriteFrom P b l) = rewriteFrom P b l := by
  intro N
  induction N with
  | zero =>
    intro l b h
    have hl : l = [] := List.eq_nil_of_length_eq_zero (Nat.le_zero.mp h)
    subst hl
    rfl
  | succ N ih =>
    intro l b h
    cases l with
    | nil => rfl
    | cons c cs =>
      have hcs : cs.length ≤ N := by simp at h; omega
      cases hm : (if b then findMatch P (c :: cs) else none) with
      | none =>
        rw [rewriteFrom_cons_none hm]
        cases b with
        | false =>
          rw [rewriteFrom_cons_false, ih cs (!isIdentChar c) hcs]
        | true =>
          have hfm : findMatch P (c :: cs) = none := by simpa using hm
          have hrel : Rel P (c :: cs) (c :: rewriteFrom P (!isIdentChar c) cs) :=
            Rel.copy c (rel_rewriteFrom P cs.length cs (!isIdentChar c) (Nat.le_refl _))
          have hnone := rel_no_new_match hg hrel hfm
          rw [rewriteFrom_cons_nomatch hnone true, ih cs (!isIdentChar c) hcs]
      | some e =>
        obtain ⟨q, o, n⟩ := e
        have hbt : b = true := by
          cases b
          · simp at hm
          · rfl
        subst hbt
        have hfm : findMatch P (c :: cs) = some (q, o, n) := by simpa using hm
        obtain ⟨hmem, hpm⟩ := findMatch_mem_patMatches hfm
        obtain ⟨hsplit, hbrest⟩ := patMatches_decomp hpm
        obtain ⟨hqI, hoI, hnI⟩ := hg.1 _ hmem
        have hrOk : repOk n = false := repOk_false_of_ident hnI
        have hlrest : ((c :: cs).drop (patLen q o)).length ≤ N := by
          rw [List.length_drop]
          have := patLen_pos q o
          simp
          omega
        rw [rewriteFrom_match hfm (by simp), hrOk]
        have hrelrest : Rel P ((c :: cs).drop (patLen q o))
            (rewriteFrom P false ((c :: cs).drop (patLen q o))) :=
          rel_rewriteFrom P ((c :: cs).drop (patLen q o)).length _ false (Nat.le_refl _)
        have hout1 : rewriteFrom P false ((c :: cs).drop (patLen q o)) = [] ∨
            ∃ r t, rewriteFrom P false ((c :: cs).drop (patLen q o)) = r :: t ∧
              isIdentChar r = false :=
          out_head_boundary hrelrest hbrest
        obtain ⟨q0, qt, hq⟩ := List.exists_cons_of_ne_nil (identL_ne_nil hqI)
        obtain ⟨n0, nt, hn⟩ := List.exists_cons_of_ne_nil (identL_ne_nil hnI)
        have hq0 : isIdentChar q0 = true :=
          ident_of_mem_of_all (identL_all hqI) (by rw [hq]; simp)
        have hqt : qt.all isIdentChar = true := by
          apply List.all_eq_true.mpr
          intro a ha
          exact ident_of_mem_of_all (identL_all hqI)
            (by rw [hq]; exact List.mem_cons_of_mem _ ha)
        have hn0 : isIdentChar n0 = true :=
          ident_of_mem_of_all (identL_all hnI) (by rw [hn]; simp)
        have hnt : nt.all isIdentChar = true := by
          apply List.all_eq_true.mpr
          intro a ha
          exact ident_of_mem_of_all (identL_all hnI)
            (by rw [hn]; exact List.mem_cons_of_mem _ ha)
        have hnm1 : findMatch P
            (patList q n ++ rewriteFrom P false ((c :: cs).drop (patLen q o))) = none := by
          apply List.find?_eq_none.mpr
          intro e he hx
          have hff := patMatches_repBlock_false hg hmem hout1 he
          rw [hff] at hx
          exact Bool.noConfusion hx
        have hnm2 : findMatch P
            (n.data ++ rewriteFrom P false ((c :: cs).drop (patLen q o))) = none := by
          apply List.find?_eq_none.mpr
          intro e he hx
          have hff := patMatches_midBlock_false hg hmem hout1 he
          rw [hff] at hx
          exact Bool.noConfusion hx
        have hshape : patList q n ++ rewriteFrom P false ((c :: cs).drop (patLen q o)) =
            q0 :: (qt ++ '.' :: (n.data ++ rewriteFrom P false ((c :: cs).drop (patLen q o)))) := by
          rw [patList, hq]
          simp
        rw [hshape]
        rw [rewriteFrom_cons_nomatch (by rw [← hshape]; exact hnm1) true]
        rw [hq0]
        show q0 :: rewriteFrom P false
            (qt ++ '.' :: (n.data ++ rewriteFrom P false ((c :: cs).drop (patLen q o)))) = _
        rw [rewriteFrom_ident_append
          ('.' :: (n.data ++ rewriteFrom P false ((c :: cs).drop (patLen q o)))) hqt]
        rw [rewriteFrom_cons_false]
        have hdot2 : (!isIdentChar '.') = true := by
          rw [dot_not_ident]
          rfl
        rw [hdot2]
        have hstep4 : rewriteFrom P true
            (n.data ++ rewriteFrom P false ((c :: cs).drop (patLen q o))) =
            n.data ++ rewriteFrom P false ((c :: cs).drop (patLen q o)) := by
          rw [hn]
          have hnm2' : findMatch P
              (n0 :: (nt ++ rewriteFrom P false ((c :: cs).drop (patLen q o)))) = none := by
            rw [← List.cons_append, ← hn]
            exact hnm2
          rw [List.cons_append]
          rw [rewriteFrom_cons_nomatch hnm2' true]
          rw [hn0]
          show n0 :: rewriteFrom P false
              (nt ++ rewriteFrom P false ((c :: cs).drop (patLen q o))) = _
          rw [rewriteFrom_ident_append
            (rewriteFrom P false ((c :: cs).drop (patLen q o))) hnt]
          rw [ih ((c :: cs).drop (patLen q o)) false hlrest]
        rw [hstep4]

end Engine

namespace Engine

/-- Modelled from the spec: well-formedness of the configuration under which
idempotency is guaranteed — qualifiers and symbols are identifiers and no
rule's new symbol coincides with any rule's old symbol or any qualifier. -/
abbrev GoodConfig (rules : List (String × String)) (qs : List String) : Prop :=
  (∀ q ∈ qs, identL q.data = true) ∧
  (∀ r ∈ rules, identL r.1.data = true ∧ identL r.2.data = true) ∧
  (∀ r ∈ rules, ∀ r2 ∈ rules, r.2.data ≠ r2.1.data) ∧
  (∀ r ∈ rules, ∀ q ∈ qs, r.2.data ≠ q.data)

theorem mem_pairsOf {qs : List String} {rules : List (String × String)}
    {e : String × String × String} :
    e ∈ pairsOf qs rules ↔ ∃ q ∈ qs, ∃ r ∈ rules, e = (q, r.1, r.2) := by
  induction qs with
  | nil => simp [pairsOf]
  | cons q1 qt ih =>
    simp only [pairsOf, List.mem_append, List.mem_map, ih, List.mem_cons]
    constructor
    · rintro (⟨r, hr, he⟩ | ⟨q, hq, r, hr, he⟩)
      · exact ⟨q1, Or.inl rfl, r, hr, he.symm⟩
      · exact ⟨q, Or.inr hq, r, hr, he⟩
    · rintro ⟨q, hq | hq, r, hr, he⟩
      · exact Or.inl ⟨r, hr, by rw [he, hq]⟩
      · exact Or.inr ⟨q, hq, r, hr, he⟩

theorem goodP_pairsOf {rules : List (String × String)} {qs : List String}
    (hg : GoodConfig rules qs) : GoodP (pairsOf qs rules) := by
  obtain ⟨h1, h2, h3, h4⟩ := hg
  refine ⟨?_, ?_, ?_⟩
  · intro e he
    obtain ⟨q, hq, r, hr, rfl⟩ := mem_pairsOf.mp he
    exact ⟨h1 q hq, (h2 r hr).1, (h2 r hr).2⟩
  · intro e he e2 he2
    obtain ⟨q, hq, r, hr, rfl⟩ := mem_pairsOf.mp he
    obtain ⟨q2, hq2, r2, hr2, rfl⟩ := mem_pairsOf.mp he2
    exact h3 r hr r2 hr2
  · intro e he e2 he2
    obtain ⟨q, hq, r, hr, rfl⟩ := mem_pairsOf.mp he
    obtain ⟨q2, hq2, r2, hr2, rfl⟩ := mem_pairsOf.mp he2
    exact h4 r hr q2 hq2

theorem rewriteContent_idem {rules : List (String × String)} {qs : List String}
    (hg : GoodConfig rules qs) (s : String) :
    rewriteContent rules qs (rewriteContent rules qs s) = rewriteContent rules qs s := by
  apply String.ext
  show rewriteFrom (pairsOf qs rules) true (rewriteFrom (pairsOf qs rules) true s.data) =
    rewriteFrom (pairsOf qs rules) true s.data
  exact rewriteFrom_idem (goodP_pairsOf hg) s.data.length s.data true (Nat.le_refl _)

theorem processFile_idem {rules : List (String × String)} {qs : List String}
    (hg : GoodConfig rules qs) (f : FileEntry) :
    (processFile rules qs (processFile rules qs f).1).1 = (processFile rules qs f).1 ∧
    (processFile rules qs (processFile rules qs f).1).2.1.changed = false := by
  by_cases hre : f.readable = true
  · by_cases hch : rewriteContent rules qs f.content = f.content
    · simp [processFile, hre, hch]
    · by_cases hw : f.writable = true
      · have hidem := rewriteContent_idem hg f.content
        simp [processFile, hre, hch, hw, hidem]
      · simp [processFile, hre, hch, hw]
  · have hre2 : f.readable = false := by
      revert hre
      cases f.readable <;> simp
    simp [processFile, hre2]

end Engine

open Engine in
/-- C2 counterexample: for the rule table A maps to B, B maps to C, the
qualifier set containing q and the one-file tree holding q.A, the tree
produced by the first run is changed again by the second run, and the second
run reports one modification rather than zero — so idempotence fails for this
tree and rule table. -/
theorem c2_counterexample :
    (runEngine [("A", "B"), ("B", "C")] ["q"]
        ((runEngine [("A", "B"), ("B", "C")] ["q"]
          [⟨"a.txt", "q.A", true, true⟩]).1)).1 ≠
      (runEngine [("A", "B"), ("B", "C")] ["q"] [⟨"a.txt", "q.A", true, true⟩]).1 ∧
    (report (runEngine [("A", "B"), ("B", "C")] ["q"]
        ((runEngine [("A", "B"), ("B", "C")] ["q"]
          [⟨"a.txt", "q.A", true, true⟩]).1)).2).totalModified ≠ 0 := by
  constructor
  · decide
  · decide

open Engine in
/-- C2 (amended): idempotence of the rewrite engine holds for every content
and every tree provided the configuration is well formed — qualifiers and
symbols are identifiers and no rule's new symbol is also an old symbol or a
qualifier (with new symbols that feed other rules or qualifiers, as in the
counterexample, a second run can rewrite again). Under that proviso a second
application changes nothing and the second run reports zero modifications. -/
theorem c2_idempotence_amended (rules : List (String × String)) (qs : List String)
    (hg : GoodConfig rules qs) :
    (∀ s : String,
      rewriteContent rules qs (rewriteContent rules qs s) = rewriteContent rules qs s) ∧
    (∀ fs : List FileEntry,
      (runEngine rules qs ((runEngine rules qs fs).1)).1 = (runEngine rules qs fs).1) ∧
    (∀ fs : List FileEntry,
      (report (runEngine rules qs ((runEngine rules qs fs).1)).2).totalModified = 0) := by
  refine ⟨fun s => rewriteContent_idem hg s, ?_, ?_⟩
  · intro fs
    show ((fs.map fun f => (processFile rules qs f).1).map
        fun f => (processFile rules qs f).1) = fs.map fun f => (processFile rules qs f).1
    rw [List.map_map]
    have hfun : ((fun f => (processFile rules qs f).1) ∘
        fun f => (processFile rules qs f).1) = fun f => (processFile rules qs f).1 :=
      funext fun f => (processFile_idem hg f).1
    rw [hfun]
  · intro fs
    show (((fs.map fun f => (processFile rules qs f).1).map
        fun f => (processFile rules qs f).2.1).filter fun o => o.changed).length = 0
    rw [List.map_map]
    apply List.length_eq_zero.mpr
    apply List.filter_eq_nil_iff.mpr
    intro o ho
    obtain ⟨f, hf, rfl⟩ := List.mem_map.mp ho
    have h2 := (processFile_idem hg f).2
    simp only [Function.comp_apply]
    rw [h2]
    simp

open Engine in
/-- Witness for C2 (amended) at a concrete well-formed configuration and a
concrete content containing a qualified old symbol. -/
theorem c2_witness :
    GoodConfig [("OldName", "NewName")] ["alias1", "alias2"] ∧
    rewriteContent [("OldName", "NewName")] ["alias1", "alias2"]
        (rewriteContent [("OldName", "NewName")] ["alias1", "alias2"]
          "alias1.OldName x") =
      rewriteContent [("OldName", "NewName")] ["alias1", "alias2"]
        "alias1.OldName x" :=
  ⟨by decide,
    (c2_idempotence_amended [("OldName", "NewName")] ["alias1", "alias2"]
      (by decide)).1 "alias1.OldName x"⟩

namespace Engine

theorem patMatches_qualified_ident {q2 X q A : String}
    (hq2 : identL q2.data = true) (hq : identL q.data = true)
    (hA : identL A.data = true) (hX : X.data.all isIdentChar = true) :
    patMatches q2 X (q.data ++ '.' :: A.data) = true ↔
      (q2.data = q.data ∧ X.data = A.data) := by
  constructor
  · intro h
    obtain ⟨hp, hb⟩ := patMatches_iff.mp h
    rw [patList] at hp
    obtain ⟨hqq, hXp⟩ := dot_split (dot_not_mem_of_all_ident (identL_all hq2))
      (dot_not_mem_of_all_ident (identL_all hq)) hp
    refine ⟨hqq, ?_⟩
    have hb2 : boundaryAfter (A.data.drop X.data.length) = true := by
      rw [patLen, hqq, drop_patList] at hb
      exact hb
    have hXp2 : X.data <+: A.data ++ [] := by simpa using hXp
    have hb3 : boundaryAfter ((A.data ++ []).drop X.data.length) = true := by
      simpa using hb2
    have := ident_run_prefix hX (identL_all hA) (Or.inl rfl) hXp2 hb3
    simpa using this
  · rintro ⟨hqq, hXA⟩
    apply patMatches_iff.mpr
    constructor
    · rw [patList, hqq, hXA]
    · rw [patLen, hqq, hXA]
      have hd : (q.data ++ '.' :: A.data).drop (q.data.length + 1 + A.data.length) = [] := by
        rw [drop_patList, List.drop_length]
      rw [hd]
      rfl

theorem findMatch_two_rules (qs : List String) (q A B C : String)
    (hqsI : ∀ x ∈ qs, identL x.data = true) (hq : q ∈ qs)
    (hA : identL A.data = true) (hB : identL B.data = true)
    (hAB : A ≠ B) :
    findMatch (pairsOf qs [(A, B), (B, C)]) (q.data ++ '.' :: A.data) =
      some (q, A, B) := by
  have hqI : identL q.data = true := hqsI q hq
  induction qs with
  | nil => simp at hq
  | cons q1 qt ih =>
    by_cases hq1 : q1 = q
    · subst hq1
      have hpm : patMatches q1 A (q1.data ++ '.' :: A.data) = true :=
        (patMatches_qualified_ident hqI hqI hA (identL_all hA)).mpr ⟨rfl, rfl⟩
      show List.find? (fun e => patMatches e.1 e.2.1 (q1.data ++ '.' :: A.data))
        ((q1, A, B) :: (q1, B, C) :: pairsOf qt [(A, B), (B, C)]) = some (q1, A, B)
      rw [List.find?_cons_of_pos]
      exact hpm
    · have hq2 : q ∈ qt := by
        rcases List.mem_cons.mp hq with h | h
        · exact absurd h.symm hq1
        · exact h
      have hq1I : identL q1.data = true := hqsI q1 (List.mem_cons_self q1 qt)
      have hfail1 : patMatches q1 A (q.data ++ '.' :: A.data) = false := by
        cases hx : patMatches q1 A (q.data ++ '.' :: A.data) with
        | false => rfl
        | true =>
          obtain ⟨h1, -⟩ := (patMatches_qualified_ident hq1I hqI hA (identL_all hA)).mp hx
          exact absurd (String.ext h1) hq1
      have hfail2 : patMatches q1 B (q.data ++ '.' :: A.data) = false := by
        cases hx : patMatches q1 B (q.data ++ '.' :: A.data) with
        | false => rfl
        | true =>
          obtain ⟨-, h2⟩ := (patMatches_qualified_ident hq1I hqI hA (identL_all hB)).mp hx
          exact absurd (String.ext h2).symm hAB
      show List.find? (fun e => patMatches e.1 e.2.1 (q.data ++ '.' :: A.data))
        ((q1, A, B) :: (q1, B, C) :: pairsOf qt [(A, B), (B, C)]) = some (q, A, B)
      rw [List.find?_cons_of_neg, List.find?_cons_of_neg]
      · exact ih (fun x hx => hqsI x (List.mem_cons_of_mem _ hx)) hq2
      · simp [hfail2]
      · simp [hfail1]

end Engine

open Engine in
/-- C3: no cascading substitution — all rules are applied in a single pass
over the original content, so for rules A to B and B to C and any qualifier q
of the qualifier set (all identifiers, distinct old symbols), a content
holding exactly the qualified occurrence q.A becomes q.B after one run, never
q.C. -/
theorem c3_no_cascading (qs : List String) (q A B C : String)
    (hqsI : ∀ x ∈ qs, identL x.data = true) (hq : q ∈ qs)
    (hA : identL A.data = true) (hB : identL B.data = true) (hAB : A ≠ B) :
    rewriteContent [(A, B), (B, C)] qs (q ++ "." ++ A) = q ++ "." ++ B := by
  apply String.ext
  have hdot : (".".data : List Char) = ['.'] := rfl
  have hdataA : (q ++ "." ++ A).data = q.data ++ '.' :: A.data := by
    rw [String.data_append, String.data_append, hdot, List.append_assoc]
    rfl
  have hdataB : (q ++ "." ++ B).data = q.data ++ '.' :: B.data := by
    rw [String.data_append, String.data_append, hdot, List.append_assoc]
    rfl
  show rewriteFrom (pairsOf qs [(A, B), (B, C)]) true (q ++ "." ++ A).data =
    (q ++ "." ++ B).data
  rw [hdataA, hdataB]
  have hfm := findMatch_two_rules qs q A B C hqsI hq hA hB hAB
  have hne : q.data ++ '.' :: A.data ≠ [] := by simp
  rw [rewriteFrom_match hfm hne]
  have hdrop : (q.data ++ '.' :: A.data).drop (patLen q A) = [] := by
    rw [patLen, drop_patList, List.drop_length]
  rw [hdrop]
  show patList q B ++ [] = q.data ++ '.' :: B.data
  rw [List.append_nil, patList]

open Engine in
/-- Witness for C3 at a concrete configuration: with rules A to B and B to C
under qualifier q, the content q.A becomes q.B after one run, not q.C. -/
theorem c3_witness :
    rewriteContent [("A", "B"), ("B", "C")] ["q"] ("q" ++ "." ++ "A") =
      "q" ++ "." ++ "B" :=
  c3_no_cascading ["q"] "q" "A" "B" "C" (by decide) (by decide) (by decide)
    (by decide) (by decide)

open Engine in
/-- C4: identifier-boundary correctness — a file whose only candidate text
embeds an old symbol as a strict prefix of a longer identifier (content
q.OE for an identifier OE extending the old symbol O, no rule's old symbol
being the full identifier OE) is left byte-identical and its outcome reports
changed false with no error. -/
theorem c4_boundary_correctness (rules : List (String × String)) (qs : List String)
    (q O E N : String) (p : String)
    (hqsI : ∀ x ∈ qs, identL x.data = true)
    (hrI : ∀ r ∈ rules, identL r.1.data = true)
    (hq : identL q.data = true) (hO : identL O.data = true)
    (hE : identL E.data = true)
    (hne : ∀ r ∈ rules, r.1.data ≠ O.data ++ E.data)
    (_hOr : (O, N) ∈ rules) :
    rewriteContent rules qs (q ++ "." ++ (O ++ E)) = q ++ "." ++ (O ++ E) ∧
    (processFile rules qs ⟨p, q ++ "." ++ (O ++ E), true, true⟩).2.1 =
      ⟨p, false, none⟩ := by
  have hIall : (O.data ++ E.data).all isIdentChar = true := by
    apply List.all_eq_true.mpr
    intro x hx
    rcases List.mem_append.mp hx with h | h
    · exact ident_of_mem_of_all (identL_all hO) h
    · exact ident_of_mem_of_all (identL_all hE) h
  have hIident : identL (O ++ E).data = true := by
    rw [String.data_append]
    apply (Bool.and_eq_true _ _).mpr
    constructor
    · have hOne : O.data ≠ [] := identL_ne_nil hO
      have hIne : O.data ++ E.data ≠ [] := by
        intro hcon
        exact hOne (List.append_eq_nil.mp hcon).1
      simpa [List.isEmpty_eq_false] using hIne
    · exact hIall
  have hdot : (".".data : List Char) = ['.'] := rfl
  have hdata : (q ++ "." ++ (O ++ E)).data = q.data ++ '.' :: (O.data ++ E.data) := by
    rw [String.data_append, String.data_append, String.data_append, hdot,
      List.append_assoc]
    rfl
  have hmain : rewriteContent rules qs (q ++ "." ++ (O ++ E)) = q ++ "." ++ (O ++ E) := by
    apply String.ext
    show rewriteFrom (pairsOf qs rules) true (q ++ "." ++ (O ++ E)).data =
      (q ++ "." ++ (O ++ E)).data
    rw [hdata]
    have hnm : findMatch (pairsOf qs rules) (q.data ++ '.' :: (O.data ++ E.data)) = none := by
      apply List.find?_eq_none.mpr
      intro e he hx
      obtain ⟨q2, hq2, r, hr, rfl⟩ := mem_pairsOf.mp he
      have hx2 : patMatches q2 r.1 (q.data ++ '.' :: (O ++ E).data) = true := by
        rw [String.data_append]
        exact hx
      obtain ⟨-, h2⟩ := (patMatches_qualified_ident (hqsI q2 hq2) hq hIident
        (identL_all (hrI r hr))).mp hx2
      rw [String.data_append] at h2
      exact hne r hr h2
    obtain ⟨q0, qt, hqd⟩ := List.exists_cons_of_ne_nil (identL_ne_nil hq)
    have hq0 : isIdentChar q0 = true :=
      ident_of_mem_of_all (identL_all hq) (by rw [hqd]; simp)
    have hqt : qt.all isIdentChar = true := by
      apply List.all_eq_true.mpr
      intro a ha
      exact ident_of_mem_of_all (identL_all hq)
        (by rw [hqd]; exact List.mem_cons_of_mem _ ha)
    rw [hqd]
    rw [List.cons_append]
    rw [rewriteFrom_cons_nomatch (by rw [← List.cons_append, ← hqd]; exact hnm) true]
    rw [hq0]
    show q0 :: rewriteFrom (pairsOf qs rules) false
      (qt ++ '.' :: (O.data ++ E.data)) = _
    rw [rewriteFrom_ident_append ('.' :: (O.data ++ E.data)) hqt]
    rw [rewriteFrom_cons_false]
    have hdot2 : (!isIdentChar '.') = true := by
      rw [dot_not_ident]
      rfl
    rw [hdot2]
    rw [rewriteFrom_no_dot true (dot_not_mem_of_all_ident hIall)]
  refine ⟨hmain, ?_⟩
  simp [processFile, hmain]

open Engine in
/-- Witness for C4 at a concrete input: with the single rule renaming OldName,
the content q.OldNameExtended is left unchanged and reported unchanged. -/
theorem c4_witness :
    rewriteContent [("OldName", "NewName")] ["q"]
        ("q" ++ "." ++ ("OldName" ++ "Extended")) =
      "q" ++ "." ++ ("OldName" ++ "Extended") ∧
    (processFile [("OldName", "NewName")] ["q"]
        ⟨"a.txt", "q" ++ "." ++ ("OldName" ++ "Extended"), true, true⟩).2.1 =
      ⟨"a.txt", false, none⟩ :=
  c4_boundary_correctness [("OldName", "NewName")] ["q"] "q" "OldName" "Extended"
    "NewName" "a.txt" (by decide) (by decide) (by decide) (by decide) (by decide)
    (by decide) (by decide)

namespace Engine

theorem processFile_unreadable {rules : List (String × String)} {qs : List String}
    {f : FileEntry} (h : f.readable = false) :
    processFile rules qs f = (f, ⟨f.path, false, some FileError.readErr⟩, false) := by
  simp [processFile, h]

theorem processFile_ok {rules : List (String × String)} {qs : List String}
    {f : FileEntry} (hr : f.readable = true) (hw : f.writable = true) :
    (processFile rules qs f).2.1.error = none ∧
    (processFile rules qs f).2.1.path = f.path ∧
    ((processFile rules qs f).2.1.changed = true ↔
      rewriteContent rules qs f.content ≠ f.content) := by
  by_cases hch : rewriteContent rules qs f.content = f.content <;>
    simp [processFile, hr, hw, hch]

theorem processFile_path (rules : List (String × String)) (qs : List String)
    (f : FileEntry) : (processFile rules qs f).2.1.path = f.path := by
  by_cases hr : f.readable = true
  · by_cases hch : rewriteContent rules qs f.content = f.content
    · simp [processFile, hr, hch]
    · by_cases hw : f.writable = true <;> simp [processFile, hr, hch, hw]
  · have hr2 : f.readable = false := by
      revert hr
      cases f.readable <;> simp
    simp [processFile, hr2]

end Engine

open Engine in
/-- C7: frame condition on unchanged files — whenever the transformed content
equals the original content, the engine performs no write (the write flag is
false), the file entry is returned bit-identical, and the outcome is changed
false with no error. -/
theorem c7_frame_unchanged (rules : List (String × String)) (qs : List String)
    (f : FileEntry) (hr : f.readable = true)
    (hu : rewriteContent rules qs f.content = f.content) :
    processFile rules qs f = (f, ⟨f.path, false, none⟩, false) := by
  simp [processFile, hr, hu]

open Engine in
/-- Witness for C7 at a concrete file whose content holds no occurrence of any
old symbol under any qualifier. -/
theorem c7_witness :
    processFile [("Old", "New")] ["q"] ⟨"a.txt", "hello world", true, true⟩ =
      (⟨"a.txt", "hello world", true, true⟩, ⟨"a.txt", false, none⟩, false) :=
  c7_frame_unchanged [("Old", "New")] ["q"] ⟨"a.txt", "hello world", true, true⟩
    rfl (by decide)

open Engine in
/-- C5: exit-status contract of the command surface — whenever the Rule Table
constructs and the root is accessible, the invocation completes, emits the
summary and exits with status 0 independently of whether any files were
modified; a nonzero exit status occurs only when the Rule Table fails to
construct or the root path is inaccessible. -/
theorem c5_exit_status (rules : List (String × String)) (qs : List String) :
    (∀ (fs : List FileEntry) (tbl : List (String × String)),
      buildRuleTable rules = some tbl →
      runCli rules qs (some fs) = ⟨some (report (runEngine tbl qs fs).2), 0⟩) ∧
    (∀ root : Option (List FileEntry), (runCli rules qs root).exitCode ≠ 0 →
      buildRuleTable rules = none ∨ root = none) := by
  constructor
  · intro fs tbl h
    simp [runCli, h]
  · intro root h
    cases hb : buildRuleTable rules with
    | none => exact Or.inl rfl
    | some tbl =>
      cases root with
      | none => exact Or.inr rfl
      | some fs =>
        exfalso
        apply h
        simp [runCli, hb]

open Engine in
/-- Witness for C5 at a concrete configuration whose Rule Table constructs:
the run over an accessible (empty) root exits with status 0. -/
theorem c5_witness :
    runCli [("A", "B")] ["q"] (some []) =
      ⟨some (report (runEngine [("A", "B")] ["q"] []).2), 0⟩ :=
  (c5_exit_status [("A", "B")] ["q"]).1 [] [("A", "B")] (by decide)

open Engine in
/-- C6: partial-failure isolation — in a tree holding exactly one unreadable
file u among otherwise readable and writable files, the run completes over
every file, reports one fewer file scanned successfully than the tree size,
records exactly the one failure against the path of u, and every readable
file whose content the rules change appears among the modified paths. -/
theorem c6_partial_failure_isolation (rules : List (String × String))
    (qs : List String) (l1 l2 : List FileEntry) (u : FileEntry)
    (hu : u.readable = false)
    (h1 : ∀ f ∈ l1, f.readable = true ∧ f.writable = true)
    (h2 : ∀ f ∈ l2, f.readable = true ∧ f.writable = true) :
    ((runEngine rules qs (l1 ++ u :: l2)).2).length = (l1 ++ u :: l2).length ∧
    (report (runEngine rules qs (l1 ++ u :: l2)).2).totalScanned + 1 =
      (l1 ++ u :: l2).length ∧
    (report (runEngine rules qs (l1 ++ u :: l2)).2).failedPaths =
      [(u.path, FileError.readErr)] ∧
    (∀ f ∈ l1 ++ u :: l2, f.readable = true →
      rewriteContent rules qs f.content ≠ f.content →
      f.path ∈ (report (runEngine rules qs (l1 ++ u :: l2)).2).modifiedPaths) := by
  have houts : (runEngine rules qs (l1 ++ u :: l2)).2 =
      (l1.map fun f => (processFile rules qs f).2.1) ++
        (processFile rules qs u).2.1 ::
          (l2.map fun f => (processFile rules qs f).2.1) := by
    show (l1 ++ u :: l2).map (fun f => (processFile rules qs f).2.1) = _
    rw [List.map_append, List.map_cons]
  have huout : (processFile rules qs u).2.1 =
      ⟨u.path, false, some FileError.readErr⟩ := by
    rw [processFile_unreadable hu]
  refine ⟨?_, ?_, ?_, ?_⟩
  · rw [houts]
    simp
  · show ((((runEngine rules qs (l1 ++ u :: l2)).2).filter
      fun o => o.error.isNone).length) + 1 = (l1 ++ u :: l2).length
    rw [houts, List.filter_append, List.filter_cons]
    have hfu : (Option.isNone (⟨u.path, false, some FileError.readErr⟩ :
        FileOutcome).error) = false := rfl
    rw [huout, hfu]
    have hkeep1 : (l1.map fun f => (processFile rules qs f).2.1).filter
        (fun o => o.error.isNone) = l1.map fun f => (processFile rules qs f).2.1 := by
      apply List.filter_eq_self.mpr
      intro o ho
      obtain ⟨f, hf, rfl⟩ := List.mem_map.mp ho
      rw [(processFile_ok (h1 f hf).1 (h1 f hf).2).1]
      rfl
    have hkeep2 : (l2.map fun f => (processFile rules qs f).2.1).filter
        (fun o => o.error.isNone) = l2.map fun f => (processFile rules qs f).2.1 := by
      apply List.filter_eq_self.mpr
      intro o ho
      obtain ⟨f, hf, rfl⟩ := List.mem_map.mp ho
      rw [(processFile_ok (h2 f hf).1 (h2 f hf).2).1]
      rfl
    rw [hkeep1, hkeep2]
    simp
    omega
  · show ((runEngine rules qs (l1 ++ u :: l2)).2).filterMap
      (fun o => o.error.map fun e => (o.path, e)) = [(u.path, FileError.readErr)]
    rw [houts, List.filterMap_append, huout]
    have hnil1 : (l1.map fun f => (processFile rules qs f).2.1).filterMap
        (fun o => o.error.map fun e => (o.path, e)) = [] := by
      apply List.filterMap_eq_nil_iff.mpr
      intro o ho
      obtain ⟨f, hf, rfl⟩ := List.mem_map.mp ho
      rw [(processFile_ok (h1 f hf).1 (h1 f hf).2).1]
      rfl
    have hnil2 : (l2.map fun f => (processFile rules qs f).2.1).filterMap
        (fun o => o.error.map fun e => (o.path, e)) = [] := by
      apply List.filterMap_eq_nil_iff.mpr
      intro o ho
      obtain ⟨f, hf, rfl⟩ := List.mem_map.mp ho
      rw [(processFile_ok (h2 f hf).1 (h2 f hf).2).1]
      rfl
    rw [hnil1]
    show [] ++ ((u.path, FileError.readErr) ::
      (l2.map fun f => (processFile rules qs f).2.1).filterMap
        (fun o => o.error.map fun e => (o.path, e))) = [(u.path, FileError.readErr)]
    rw [hnil2]
    rfl
  · intro f hf hfr hfch
    have hfw : f.writable = true := by
      rcases List.mem_append.mp hf with hm | hm
      · exact (h1 f hm).2
      · rcases List.mem_cons.mp hm with hm2 | hm2
        · exfalso
          rw [hm2] at hfr
          rw [hu] at hfr
          exact Bool.noConfusion hfr
        · exact (h2 f hm2).2
    have hch : (processFile rules qs f).2.1.changed = true :=
      (processFile_ok hfr hfw).2.2.mpr hfch
    show f.path ∈ (((runEngine rules qs (l1 ++ u :: l2)).2).filter
      fun o => o.changed).map fun o => o.path
    apply List.mem_map.mpr
    refine ⟨(processFile rules qs f).2.1, ?_, processFile_path rules qs f⟩
    apply List.mem_filter.mpr
    refine ⟨?_, hch⟩
    show (processFile rules qs f).2.1 ∈
      (l1 ++ u :: l2).map fun g => (processFile rules qs g).2.1
    exact List.mem_map.mpr ⟨f, hf, rfl⟩

open Engine in
/-- Witness for C6 at a concrete three-file tree whose middle file is
unreadable: two files scanned successfully, one failure recorded, and the
readable file with a matching occurrence is modified. -/
theorem c6_witness :
    ((runEngine [("Old", "New")] ["q"]
      ([⟨"a.txt", "q.Old x", true, true⟩] ++ ⟨"b.txt", "q.Old y", false, true⟩ ::
        [⟨"c.txt", "nothing", true, true⟩])).2).length = 3 ∧
    (report (runEngine [("Old", "New")] ["q"]
      ([⟨"a.txt", "q.Old x", true, true⟩] ++ ⟨"b.txt", "q.Old y", false, true⟩ ::
        [⟨"c.txt", "nothing", true, true⟩])).2).failedPaths =
      [("b.txt", FileError.readErr)] ∧
    "a.txt" ∈ (report (runEngine [("Old", "New")] ["q"]
      ([⟨"a.txt", "q.Old x", true, true⟩] ++ ⟨"b.txt", "q.Old y", false, true⟩ ::
        [⟨"c.txt", "nothing", true, true⟩])).2).modifiedPaths := by
  have h := c6_partial_failure_isolation [("Old", "New")] ["q"]
    [⟨"a.txt", "q.Old x", true, true⟩] [⟨"c.txt", "nothing", true, true⟩]
    ⟨"b.txt", "q.Old y", false, true⟩ rfl (by decide) (by decide)
  refine ⟨h.1, h.2.2.1, ?_⟩
  exact h.2.2.2 ⟨"a.txt", "q.Old x", true, true⟩ (by decide) rfl (by decide)
